import Mathlib

/-!
Verification of the settings-generation core of `scripts/gen_settings_v2.py`
(versioned binary settings serialization).

The functions under verification are the ones present in the source file:
`flatten_values_tree` (lines 83-102), `get_cpp_data_for_struct_val`
(lines 120-151) and `gen_cpp_data_for_struct_values` (lines 158-169),
plus the packed-version encoding described in the module docstring
(lines 10-15).

The data-model classes (`StructVal`, `Val`, the field-type registry with
`pack_format`/`c_size`) come from the module `gen_settings_types_v2`, which
is not part of the sources; those definitions are modelled from the spec
(fixed widths 1/2/4/8, 8-byte pointers, `c_size` = sum of field widths,
packing rejects values outside the declared width).

Two embeddings are used:
* a tree embedding (`Val`), faithful to the acyclic/unshared value trees the
  source documents ("forming a tree of values"), on which the flattening
  loop terminates structurally; and
* a heap embedding (`HNode`/`runH`) in which nodes are identified by ids in
  a store and the mutable `offset` attribute is an explicit association
  list, so that cyclic object graphs and the effect of pre-existing offset
  state are representable.
-/

set_option maxHeartbeats 1000000

namespace GenSettings

/-- Primitive field kinds of the type registry.  Modelled from the spec:
the concrete classes live in `gen_settings_types_v2` (not in the sources);
the spec fixes the widths as "fixed-width integers of 1/2/4/8 bytes,
8-byte-normalized pointers" plus a bool-as-int kind. -/
inductive FieldType where
  | u8
  | u16
  | u32
  | u64
  | boolInt
  | ptr
deriving DecidableEq, Repr

/-- Byte width of a primitive field kind (bool-as-int is a C `int`,
4 bytes; pointers are always 8 bytes per the module docstring). -/
def FieldType.width : FieldType → Nat
  | .u8 => 1
  | .u16 => 2
  | .u32 => 4
  | .u64 => 8
  | .boolInt => 4
  | .ptr => 8

/-- Declared type of a field in a struct definition: a primitive kind or a
nullable reference to another struct (`StructPtr` in the source's TODO
notes), which is stored as an 8-byte offset. -/
inductive VarType where
  | prim (t : FieldType)
  | structPtr (target : String)
deriving DecidableEq, Repr

/-- Byte width contributed by a declared field; struct references are
8-byte pointers. -/
def VarType.width : VarType → Nat
  | .prim t => t.width
  | .structPtr _ => 8

/-- Declared field of a struct definition: a name and a type. -/
structure Var where
  name : String
  type : VarType
deriving DecidableEq, Repr

/-- Struct definition: a named, ordered list of typed fields.  The Python
attribute `vars` keeps its name. -/
structure StructDef where
  name : String
  vars : List Var
deriving DecidableEq, Repr

/-- Modelled from the spec: `c_size` is computed at definition time as the
sum of the field widths (byte-packed, no padding). -/
def StructDef.c_size (d : StructDef) : Nat :=
  (d.vars.map (fun v => v.type.width)).sum

/-- Value-tree node.  `prim` is a primitive `Val` (attribute `val` holds
the literal), `structNull` is a `StructVal` whose `val` attribute is
`None` (a null reference), and `structVal` is a `StructVal` whose `val`
attribute holds the ordered list of bound field values. -/
inductive Val where
  | prim (typ : FieldType) (v : Int)
  | structNull (struct_def : StructDef)
  | structVal (struct_def : StructDef) (val : List Val)

/-- Python's `field.is_struct`: true exactly for `StructVal` instances
(whether or not their `val` is `None`). -/
def Val.is_struct : Val → Bool
  | .prim _ _ => false
  | .structNull _ => true
  | .structVal _ _ => true

/-- Python's `field.val != None` test, specialised to the only case where
`val` can be `None`: a null struct reference. -/
def Val.valIsNone : Val → Bool
  | .structNull _ => true
  | _ => false

/-- Python's `val.struct_def.c_size` for the nodes the flattening loop
pops (always `StructVal`s); 0 for a primitive, which is never enqueued. -/
def Val.c_size : Val → Nat
  | .prim _ _ => 0
  | .structNull d => d.c_size
  | .structVal d _ => d.c_size

/-- Python's `struct_val.val` as a list (empty for the nodes that carry no
field list). -/
def Val.fields : Val → List Val
  | .structVal _ fs => fs
  | _ => []

/-- Children the loop body enqueues for a popped node, in field order:
`for field in val.val: if field.is_struct and field.val != None` (lines
94-97 of the source). -/
def nodeChildren (v : Val) : List Val :=
  match v with
  | .structVal _ fs => fs.filter (fun f => f.is_struct && !f.valIsNone)
  | _ => []

mutual

/-- Size measure of a value-tree node (for termination of the queue
traversal). -/
def Val.size : Val → Nat
  | .prim _ _ => 1
  | .structNull _ => 1
  | .structVal _ fs => 1 + sizeList fs

/-- Total size of a list of value-tree nodes. -/
def sizeList : List Val → Nat
  | [] => 0
  | v :: vs => Val.size v + sizeList vs

end

theorem sizeList_append (a b : List Val) :
    sizeList (a ++ b) = sizeList a + sizeList b := by
  induction a with
  | nil => simp [sizeList]
  | cons v vs ih => simp [sizeList, ih]; omega

theorem Val.size_pos (v : Val) : 1 ≤ v.size := by
  cases v <;> simp [Val.size]

theorem sizeList_filter_le (p : Val → Bool) (l : List Val) :
    sizeList (l.filter p) ≤ sizeList l := by
  induction l with
  | nil => simp [List.filter]
  | cons v vs ih =>
    by_cases h : p v <;> simp [List.filter, h, sizeList] <;> omega

theorem sizeList_nodeChildren_lt (v : Val) :
    sizeList (nodeChildren v) < v.size := by
  cases v with
  | prim t x => simp [nodeChildren, sizeList, Val.size]
  | structNull d => simp [nodeChildren, sizeList, Val.size]
  | structVal d fs =>
    have h := sizeList_filter_le (fun f => f.is_struct && !f.valIsNone) fs
    simp only [nodeChildren, Val.size]
    omega

/-- Work-queue flattening loop of `flatten_values_tree` (lines 88-99 of the
source): pop the front of `left`, record the popped node paired with the
current cumulative offset (the loop stores it in the node's mutable
`offset` attribute), enqueue the node's non-null struct children at the
back, and advance the offset by the popped node's `c_size`. -/
def flattenQ : List Val → Nat → List (Val × Nat)
  | [], _ => []
  | v :: rest, offset =>
    (v, offset) :: flattenQ (rest ++ nodeChildren v) (offset + v.c_size)
termination_by q _ => sizeList q
decreasing_by
  simp only [sizeList_append, sizeList]
  have h := sizeList_nodeChildren_lt v
  omega

/-- Failure outcomes of `flatten_values_tree`: `assertionError` for the
`isinstance` assert and the failed `"version"`-name assert, `indexError`
for reading `vars[0]` of an empty field list, `typeError` for iterating
the `None` field list of a null root. -/
inductive FlattenError where
  | assertionError
  | indexError
  | typeError
deriving DecidableEq, Repr

/-- Embedding of `flatten_values_tree` (lines 83-102): assert the argument
is a `StructVal`, assert the first declared field of its struct definition
is named `"version"`, then run the work-queue loop seeded with the root at
offset 0. -/
def flatten_values_tree (val : Val) : Except FlattenError (List (Val × Nat)) :=
  match val with
  | .prim _ _ => .error .assertionError
  | .structNull d =>
    match d.vars with
    | [] => .error .indexError
    | v0 :: _ =>
      if v0.name = "version" then .error .typeError else .error .assertionError
  | .structVal d fs =>
    match d.vars with
    | [] => .error .indexError
    | v0 :: _ =>
      if v0.name = "version" then .ok (flattenQ [Val.structVal d fs] 0)
      else .error .assertionError

mutual

/-- Structural (value) equality on value-tree nodes, standing in for
Python's object comparison when the emitter looks up the offset a node was
assigned during flattening. -/
def Val.beq : Val → Val → Bool
  | .prim t v, .prim t2 v2 => t == t2 && v == v2
  | .structNull d, .structNull d2 => d == d2
  | .structVal d fs, .structVal d2 fs2 => d == d2 && beqValList fs fs2
  | _, _ => false

/-- Pointwise structural equality on lists of value-tree nodes. -/
def beqValList : List Val → List Val → Bool
  | [], [] => true
  | a :: as, b :: bs => Val.beq a b && beqValList as bs
  | _, _ => false

end

/-- Failure outcomes of the byte emitter: `noneOffsetAssert` for the
`assert False, "converter None offset to 0"` hit when a struct field's
`offset` attribute is still `None`, `packRangeError` for `struct.pack`
rejecting a value that does not fit the declared width, `assertionError`
for the `isinstance` assert, `typeError` for iterating a `None` field
list, `indexError` for reading `vals[0]` of an empty record list. -/
inductive EmitError where
  | noneOffsetAssert
  | packRangeError
  | indexError
  | assertionError
  | typeError
deriving DecidableEq, Repr

/-- Little-endian byte run of a machine integer of the given byte width. -/
def leBytes : Nat → Nat → List Nat
  | 0, _ => []
  | w + 1, v => v % 256 :: leBytes w (v / 256)

/-- Modelled from the spec: `struct.pack` with the fixed-width format of
`gen_settings_types_v2` packs a value into exactly `width` bytes and fails
(`PackRangeError`) when the value does not fit the declared width. -/
def pack (width : Nat) (v : Int) : Except EmitError (List Nat) :=
  if 0 ≤ v ∧ v < (2 : Int) ^ (8 * width) then .ok (leBytes width v.toNat)
  else .error .packRangeError

/-- Offset a node was assigned by the flattening loop, read back from the
flattened list (Python reads the node's mutated `offset` attribute). -/
def lookupOffset : List (Val × Nat) → Val → Option Nat
  | [], _ => none
  | (v, o) :: rest, x => if Val.beq v x then some o else lookupOffset rest x

/-- Per-field packing of the emitter (lines 125-140 of the source): a
struct field packs its assigned offset as an 8-byte pointer, crashing on
an unassigned (`None`) offset; a primitive field packs its literal with
its type's fixed-width format. -/
def packFieldBytes (ofs : Val → Option Nat) : Val → Except EmitError (List Nat)
  | .prim t v => pack t.width v
  | .structNull d =>
    match ofs (.structNull d) with
    | none => .error .noneOffsetAssert
    | some o => pack 8 (Int.ofNat o)
  | .structVal d fs =>
    match ofs (.structVal d fs) with
    | none => .error .noneOffsetAssert
    | some o => pack 8 (Int.ofNat o)

/-- Field loop of `get_cpp_data_for_struct_val`: pack every field in
declared order and concatenate the byte runs. -/
def packFields (ofs : Val → Option Nat) : List Val → Except EmitError (List Nat)
  | [] => .ok []
  | f :: rest => do
    let a ← packFieldBytes ofs f
    let b ← packFields ofs rest
    pure (a ++ b)

/-- Embedding of `get_cpp_data_for_struct_val` (lines 120-151), restricted
to the bytes it emits; the function's `offset` argument and the returned
text lines only feed the generated C comment, never the data bytes, and
`size` is the length of the returned byte run. -/
def get_cpp_data_for_struct_val (ofs : Val → Option Nat) (struct_val : Val) :
    Except EmitError (List Nat) :=
  match struct_val with
  | .prim _ _ => .error .assertionError
  | .structNull _ => .error .typeError
  | .structVal _ fs => packFields ofs fs

/-- Record loop of `gen_cpp_data_for_struct_values`: emit every flattened
record in list order and concatenate the byte runs. -/
def genRecords (ofs : Val → Option Nat) : List (Val × Nat) → Except EmitError (List Nat)
  | [] => .ok []
  | (v, _) :: rest => do
    let a ← get_cpp_data_for_struct_val ofs v
    let b ← genRecords ofs rest
    pure (a ++ b)

/-- Embedding of `gen_cpp_data_for_struct_values` (lines 158-169): reads
`vals[0]` for the array name (an `IndexError` on an empty list), then
emits all records in flattened order, each struct field resolved through
the offsets the flattening loop stored on the nodes. -/
def gen_cpp_data_for_struct_values (vals : List (Val × Nat)) :
    Except EmitError (List Nat) :=
  match vals with
  | [] => .error .indexError
  | _ :: _ => genRecords (fun x => lookupOffset vals x) vals

/-- Packed-version encoding from the module docstring (lines 10-15):
version `a.b.c.d` is encoded as `(a << 24) | (b << 16) | (c << 8) | d`.
Modelled from the spec: the codec itself lives in the missing types
module; the docstring fixes the formula. -/
def encode (major minor patch build : Nat) : Nat :=
  (major <<< 24) ||| (minor <<< 16) ||| (patch <<< 8) ||| build

/-! Heap embedding.  Python `StructVal`s are mutable objects: the value
tree is an object graph (which mutation can even make cyclic), and
`val.offset = offset` writes an attribute that persists between calls.
The heap embedding makes this explicit: nodes are identified by their
index in a store, a field is a primitive or a nullable reference to a
node id, and the `offset` attributes are an association list (newest
write first) threaded through the traversal. -/

/-- Field of a heap node: a primitive literal or a struct reference
(`none` is a null reference). -/
inductive HField where
  | prim (t : FieldType) (v : Int)
  | ref (target : Option Nat)
deriving DecidableEq, Repr

/-- Heap node: its struct definition and its ordered bound fields. -/
structure HNode where
  struct_def : StructDef
  fields : List HField
deriving DecidableEq, Repr

/-- Store of heap nodes; a node id is an index into the list. -/
abbrev Store := List HNode

/-- Ids the loop body enqueues for a popped node id: its non-null struct
references, in field order. -/
def hchildren (s : Store) (i : Nat) : List Nat :=
  match s[i]? with
  | none => []
  | some n => n.fields.filterMap (fun f =>
      match f with
      | .ref (some j) => some j
      | _ => none)

/-- Python's `val.struct_def.c_size` for a node id. -/
def hcsize (s : Store) (i : Nat) : Nat :=
  match s[i]? with
  | none => 0
  | some n => n.struct_def.c_size

/-- State of the flattening loop: the work queue `left`, the cumulative
`offset`, the popped ids `vals` in pop order, and the written `offset`
attributes (newest first). -/
structure FState where
  left : List Nat
  offset : Nat
  vals : List Nat
  omap : List (Nat × Nat)
deriving DecidableEq, Repr

/-- One iteration of the `while len(left) > 0` loop body (lines 92-99):
pop the front id, write its `offset` attribute, enqueue its non-null
struct references at the back, advance the offset by its `c_size`, append
it to `vals`. -/
def stepH (s : Store) (st : FState) : FState :=
  match st.left with
  | [] => st
  | i :: rest =>
    { left := rest ++ hchildren s i
      offset := st.offset + hcsize s i
      vals := st.vals ++ [i]
      omap := (i, st.offset) :: st.omap }

/-- Fuelled run of the flattening loop; `none` means the fuel was
exhausted with the queue still non-empty (the loop is still running). -/
def runH (s : Store) : Nat → FState → Option FState
  | 0, st => if st.left.isEmpty then some st else none
  | n + 1, st => if st.left.isEmpty then some st else runH s n (stepH s st)

/-- Heap-embedding counterpart of `flatten_values_tree`: check the root id
exists, assert the first declared field of its struct definition is named
`"version"`, then run the work-queue loop seeded with the root at offset
0 on top of the pre-existing `offset` attributes `omap0`. -/
def hflatten (s : Store) (root : Nat) (omap0 : List (Nat × Nat)) (fuel : Nat) :
    Option (Except FlattenError FState) :=
  match s[root]? with
  | none => some (.error .indexError)
  | some n =>
    match n.struct_def.vars with
    | [] => some (.error .indexError)
    | v0 :: _ =>
      if v0.name = "version" then
        (runH s fuel { left := [root], offset := 0, vals := [], omap := omap0 }).map .ok
      else some (.error .assertionError)

/-- Association-list read of a node's `offset` attribute (newest write
wins, like attribute assignment). -/
def alookup : List (Nat × Nat) → Nat → Option Nat
  | [], _ => none
  | (k, v) :: rest, i => if k = i then some v else alookup rest i

/-- Heap-embedding counterpart of the emitter's per-field packing: a
primitive packs its literal; a struct reference packs the target's
`offset` attribute as an 8-byte pointer, crashing (`assert False`) when
the attribute is unassigned; a null reference's offset is never assigned
by the traversal, so it always crashes. -/
def packHField (omap : List (Nat × Nat)) : HField → Except EmitError (List Nat)
  | .prim t v => pack t.width v
  | .ref none => .error .noneOffsetAssert
  | .ref (some j) =>
    match alookup omap j with
    | none => .error .noneOffsetAssert
    | some o => pack 8 (Int.ofNat o)

/-- Field loop of the heap-embedding emitter. -/
def packHFields (omap : List (Nat × Nat)) : List HField → Except EmitError (List Nat)
  | [] => .ok []
  | f :: rest => do
    let a ← packHField omap f
    let b ← packHFields omap rest
    pure (a ++ b)

/-- Heap-embedding counterpart of `gen_cpp_data_for_struct_values`
restricted to the bytes: emit the popped records in order, resolving
struct references through the written `offset` attributes. -/
def hemit (s : Store) (omap : List (Nat × Nat)) : List Nat → Except EmitError (List Nat)
  | [] => .ok []
  | i :: rest =>
    match s[i]? with
    | none => .error .indexError
    | some n => do
      let a ← packHFields omap n.fields
      let b ← hemit s omap rest
      pure (a ++ b)

/-- Error of either stage of the heap-embedding pipeline. -/
inductive PipeError where
  | flattenErr (e : FlattenError)
  | emitErr (e : EmitError)
deriving DecidableEq, Repr

/-- Whole pipeline on the heap embedding: flatten the tree rooted at
`root` (on top of the pre-existing `offset` attributes `omap0`), then
emit the bytes; `none` means the flattening loop is still running after
`fuel` iterations. -/
def hpipeline (s : Store) (root : Nat) (omap0 : List (Nat × Nat)) (fuel : Nat) :
    Option (Except PipeError (List Nat)) :=
  match hflatten s root omap0 fuel with
  | none => none
  | some (.error e) => some (.error (.flattenErr e))
  | some (.ok st) =>
    match hemit s st.omap st.vals with
    | .error e => some (.error (.emitErr e))
    | .ok bs => some (.ok bs)

/-! Specification-side breadth-first traversal.  The claims describe the
flattening as a breadth-first traversal with cumulative offsets; the
specification side below defines breadth-first order independently of the
work-queue loop, generation by generation (`bfsLevels`), and the offset
assignment as a cumulative sum (`attachOffsets`), and the theorems relate
the embedded loop to this formulation. -/

/-- Concatenated enqueue-order children of a whole generation of nodes. -/
def joinChildren (q : List Val) : List Val :=
  (q.map nodeChildren).flatten

theorem joinChildren_nil : joinChildren [] = [] := rfl

theorem joinChildren_cons (v : Val) (rest : List Val) :
    joinChildren (v :: rest) = nodeChildren v ++ joinChildren rest := by
  simp [joinChildren]

theorem joinChildren_append (a b : List Val) :
    joinChildren (a ++ b) = joinChildren a ++ joinChildren b := by
  simp [joinChildren]

theorem mem_joinChildren {c : Val} {q : List Val} :
    c ∈ joinChildren q ↔ ∃ v ∈ q, c ∈ nodeChildren v := by
  simp [joinChildren]

theorem sizeList_joinChildren_le (q : List Val) :
    sizeList (joinChildren q) + q.length ≤ sizeList q := by
  induction q with
  | nil => simp [joinChildren_nil, sizeList]
  | cons v rest ih =>
    rw [joinChildren_cons, sizeList_append]
    have h := sizeList_nodeChildren_lt v
    simp only [sizeList, List.length_cons]
    omega

theorem sizeList_joinChildren_lt (v : Val) (rest : List Val) :
    sizeList (joinChildren (v :: rest)) < sizeList (v :: rest) := by
  have h := sizeList_joinChildren_le (v :: rest)
  simp only [List.length_cons] at h
  omega

/-- Level-order (generation by generation) breadth-first listing of a
forest of value-tree nodes. -/
def bfsLevels : List Val → List Val
  | [] => []
  | v :: rest => (v :: rest) ++ bfsLevels (joinChildren (v :: rest))
termination_by q => sizeList q
decreasing_by
  apply sizeList_joinChildren_lt

theorem bfsLevels_eq_of_ne_nil {q : List Val} (h : q ≠ []) :
    bfsLevels q = q ++ bfsLevels (joinChildren q) := by
  cases q with
  | nil => exact absurd rfl h
  | cons v rest => simp only [bfsLevels]

/-- Key exchange lemma: listing a forest `s ++ t` in level order is the
same as emitting `s` first and then treating the children of `s` as
having been enqueued behind `t`. -/
theorem bfsLevels_append_aux :
    ∀ (n : Nat) (s t : List Val), sizeList s + sizeList t ≤ n →
      bfsLevels (s ++ t) = s ++ bfsLevels (t ++ joinChildren s) := by
  intro n
  induction n with
  | zero =>
    intro s t h
    cases s with
    | nil => simp [joinChildren_nil]
    | cons y s2 =>
      have := Val.size_pos y
      simp [sizeList] at h
      omega
  | succ n ih =>
    intro s t h
    cases s with
    | nil => simp [joinChildren_nil]
    | cons y s2 =>
      have hstep : bfsLevels ((y :: s2) ++ t)
          = (y :: (s2 ++ t)) ++ bfsLevels (joinChildren (y :: (s2 ++ t))) := by
        rw [List.cons_append]
        simp only [bfsLevels]
      have hjc : joinChildren (y :: (s2 ++ t))
          = nodeChildren y ++ joinChildren s2 ++ joinChildren t := by
        rw [joinChildren_cons, joinChildren_append, List.append_assoc]
      have hsz : sizeList t + sizeList (nodeChildren y ++ joinChildren s2) ≤ n := by
        rw [sizeList_append]
        have h1 := sizeList_nodeChildren_lt y
        have h2 := sizeList_joinChildren_le s2
        simp only [sizeList] at h
        omega
      have hih := ih t (nodeChildren y ++ joinChildren s2) hsz
      rw [hstep, hjc, joinChildren_cons]
      rw [List.append_assoc (nodeChildren y) (joinChildren s2) (joinChildren t)] at hih ⊢
      rw [hih]
      simp

/-- Popping one node off the front of a level-order listing: the queue
discipline of the loop agrees with level order. -/
theorem bfsLevels_cons (y : Val) (s : List Val) :
    bfsLevels (y :: s) = y :: bfsLevels (s ++ nodeChildren y) := by
  have h := bfsLevels_append_aux (sizeList [y] + sizeList s) [y] s le_rfl
  simpa [joinChildren_cons, joinChildren_nil] using h

/-- Offset assignment of the spec: give the first node the running offset
and advance by its `c_size`. -/
def attachOffsets : Nat → List Val → List (Val × Nat)
  | _, [] => []
  | off, v :: vs => (v, off) :: attachOffsets (off + v.c_size) vs

theorem flattenQ_eq_attach_aux :
    ∀ (n : Nat) (q : List Val) (off : Nat), sizeList q ≤ n →
      flattenQ q off = attachOffsets off (bfsLevels q) := by
  intro n
  induction n with
  | zero =>
    intro q off h
    cases q with
    | nil => simp only [flattenQ, bfsLevels, attachOffsets]
    | cons v rest =>
      have := Val.size_pos v
      simp [sizeList] at h
      omega
  | succ n ih =>
    intro q off h
    cases q with
    | nil => simp only [flattenQ, bfsLevels, attachOffsets]
    | cons v rest =>
      have hsz : sizeList (rest ++ nodeChildren v) ≤ n := by
        rw [sizeList_append]
        have h1 := sizeList_nodeChildren_lt v
        simp only [sizeList] at h
        omega
      rw [bfsLevels_cons]
      simp only [flattenQ, attachOffsets]
      rw [ih (rest ++ nodeChildren v) (off + v.c_size) hsz]

/-- The work-queue loop computes exactly the level-order listing with
cumulative offsets. -/
theorem flattenQ_eq_attach (q : List Val) (off : Nat) :
    flattenQ q off = attachOffsets off (bfsLevels q) :=
  flattenQ_eq_attach_aux (sizeList q) q off le_rfl

/-- Reachability along non-null struct fields: the nodes the traversal
visits starting from a root. -/
inductive Reaches : Val → Val → Prop where
  | refl (v : Val) : Reaches v v
  | head {v c x : Val} : c ∈ nodeChildren v → Reaches c x → Reaches v x

theorem mem_bfsLevels_of_reaches {c x : Val} (h : Reaches c x) :
    ∀ q : List Val, c ∈ q → x ∈ bfsLevels q := by
  induction h with
  | refl v =>
    intro q hq
    rw [bfsLevels_eq_of_ne_nil (List.ne_nil_of_mem hq)]
    exact List.mem_append_left _ hq
  | head hc _ ih =>
    intro q hq
    rw [bfsLevels_eq_of_ne_nil (List.ne_nil_of_mem hq)]
    refine List.mem_append_right _ (ih _ ?_)
    exact mem_joinChildren.mpr ⟨_, hq, hc⟩

theorem reaches_of_mem_bfsLevels_aux :
    ∀ (n : Nat) (q : List Val), sizeList q ≤ n →
      ∀ x ∈ bfsLevels q, ∃ v ∈ q, Reaches v x := by
  intro n
  induction n with
  | zero =>
    intro q h x hx
    cases q with
    | nil => simp [bfsLevels] at hx
    | cons v rest =>
      have := Val.size_pos v
      simp [sizeList] at h
      omega
  | succ n ih =>
    intro q h x hx
    cases q with
    | nil => simp [bfsLevels] at hx
    | cons v rest =>
      rw [bfsLevels_eq_of_ne_nil (by simp)] at hx
      rcases List.mem_append.mp hx with hx | hx
      · exact ⟨x, hx, Reaches.refl x⟩
      · have hsz : sizeList (joinChildren (v :: rest)) ≤ n := by
          have := sizeList_joinChildren_lt v rest
          omega
        rcases ih _ hsz x hx with ⟨c, hc, hcx⟩
        rcases mem_joinChildren.mp hc with ⟨w, hw, hcw⟩
        exact ⟨w, hw, Reaches.head hcw hcx⟩

theorem mem_bfsLevels_iff {q : List Val} {x : Val} :
    x ∈ bfsLevels q ↔ ∃ v ∈ q, Reaches v x := by
  constructor
  · exact reaches_of_mem_bfsLevels_aux (sizeList q) q le_rfl x
  · rintro ⟨v, hv, hvx⟩
    exact mem_bfsLevels_of_reaches hvx q hv

theorem fst_mem_of_mem_attachOffsets :
    ∀ (l : List Val) (off : Nat) (p : Val × Nat),
      p ∈ attachOffsets off l → p.1 ∈ l := by
  intro l
  induction l with
  | nil => intro off p hp; simp [attachOffsets] at hp
  | cons v vs ih =>
    intro off p hp
    simp only [attachOffsets, List.mem_cons] at hp
    rcases hp with hp | hp
    · subst hp; simp
    · exact List.mem_cons_of_mem _ (ih _ p hp)

theorem mem_attachOffsets_of_mem :
    ∀ (l : List Val) (off : Nat) (x : Val),
      x ∈ l → ∃ o : Nat, (x, o) ∈ attachOffsets off l := by
  intro l
  induction l with
  | nil => intro off x hx; simp at hx
  | cons v vs ih =>
    intro off x hx
    rcases List.mem_cons.mp hx with hx | hx
    · subst hx; exact ⟨off, List.mem_cons_self _ _⟩
    · rcases ih (off + v.c_size) x hx with ⟨o, ho⟩
      exact ⟨o, List.mem_cons_of_mem _ ho⟩

theorem attachOffsets_get?_succ :
    ∀ (l : List Val) (off i : Nat) (v1 : Val) (o1 : Nat) (v2 : Val) (o2 : Nat),
      List.get? (attachOffsets off l) i = some (v1, o1) →
      List.get? (attachOffsets off l) (i + 1) = some (v2, o2) →
      o2 = o1 + v1.c_size := by
  intro l
  induction l with
  | nil => intro off i v1 o1 v2 o2 h1 h2; simp [attachOffsets] at h1
  | cons v vs ih =>
    intro off i v1 o1 v2 o2 h1 h2
    cases i with
    | zero =>
      simp only [attachOffsets, List.get?] at h1 h2
      obtain ⟨rfl, rfl⟩ : v1 = v ∧ o1 = off := by
        injection h1 with h; injection h with ha hb; exact ⟨ha.symm, hb.symm⟩
      cases vs with
      | nil => simp [attachOffsets] at h2
      | cons w ws =>
        simp only [attachOffsets, List.get?] at h2
        injection h2 with h; injection h with ha hb
        omega
    | succ j =>
      simp only [attachOffsets, List.get?] at h1 h2
      exact ih (off + v.c_size) j v1 o1 v2 o2 h1 h2

theorem attachOffsets_get?_zero (l : List Val) (off : Nat) (v : Val) (vs : List Val)
    (h : l = v :: vs) : List.get? (attachOffsets off l) 0 = some (v, off) := by
  subst h; rfl

theorem flatten_ok_shape {root : Val} {l : List (Val × Nat)}
    (h : flatten_values_tree root = Except.ok l) :
    ∃ d fs, root = Val.structVal d fs ∧
      (∃ v0 r, d.vars = v0 :: r ∧ v0.name = "version") ∧
      l = flattenQ [root] 0 := by
  cases root with
  | prim t v => exact absurd h (by simp [flatten_values_tree])
  | structNull d =>
    exfalso
    simp only [flatten_values_tree] at h
    split at h
    · exact Except.noConfusion h
    · split at h <;> exact Except.noConfusion h
  | structVal d fs =>
    simp only [flatten_values_tree] at h
    split at h
    · exact Except.noConfusion h
    · rename_i v0 r hv
      by_cases hn : v0.name = "version"
      · rw [if_pos hn] at h
        refine ⟨d, fs, rfl, ⟨v0, r, hv, hn⟩, ?_⟩
        injection h with h2
        exact h2.symm
      · rw [if_neg hn] at h
        exact Except.noConfusion h

/-! Concrete schema used by the witnesses: the end-to-end example of the
spec, `S {version : u32, count : u32, child : StructRef C}` and
`C {version : u32, flag : u8}`, with the root
`S(version = 2, count = 5, child = C(version = 2, flag = 1))`. -/

/-- Example struct definition `C {version : u32, flag : u8}`. -/
def defC : StructDef :=
  ⟨"C", [⟨"version", .prim .u32⟩, ⟨"flag", .prim .u8⟩]⟩

/-- Example struct definition
`S {version : u32, count : u32, child : StructRef C}`. -/
def defS : StructDef :=
  ⟨"S", [⟨"version", .prim .u32⟩, ⟨"count", .prim .u32⟩, ⟨"child", .structPtr "C"⟩]⟩

/-- Example nested record `C(version = 2, flag = 1)`. -/
def childC : Val := .structVal defC [.prim .u32 2, .prim .u8 1]

/-- Example root record `S(version = 2, count = 5, child = childC)`. -/
def rootS : Val := .structVal defS [.prim .u32 2, .prim .u32 5, childC]

theorem flatten_rootS_eval :
    flatten_values_tree rootS = Except.ok [(rootS, 0), (childC, 16)] := by
  simp [flatten_values_tree, rootS, childC, defS, defC, flattenQ, nodeChildren,
    Val.is_struct, Val.valIsNone, Val.c_size, StructDef.c_size, VarType.width,
    FieldType.width, List.filter]

/-- C1: for every acyclic value tree accepted by `flatten_values_tree`,
the returned list is the breadth-first (level-order) listing of the tree
rooted at the argument, in pop order, each node paired with the cumulative
offset that starts at 0 at the root and advances by the popped node's
`c_size`; the children enqueued at the back are exactly the non-null
struct fields in field order (`nodeChildren`). -/
theorem c1_flatten_is_breadth_first (root : Val) (l : List (Val × Nat))
    (h : flatten_values_tree root = Except.ok l) :
    l = attachOffsets 0 (bfsLevels [root]) := by
  rcases flatten_ok_shape h with ⟨d, fs, hroot, hver, hl⟩
  rw [hl, flattenQ_eq_attach]

/-- Witness for C1 on the concrete example tree. -/
theorem c1_witness :
    flatten_values_tree rootS = Except.ok [(rootS, 0), (childC, 16)] ∧
    [(rootS, 0), (childC, 16)] = attachOffsets 0 (bfsLevels [rootS]) :=
  ⟨flatten_rootS_eval, c1_flatten_is_breadth_first rootS _ flatten_rootS_eval⟩

/-- C2: in every flattened list the root record is assigned offset 0 and
each later record's offset is the previous record's offset plus the
previous record's `c_size`; the pairing of each visited node with a single
offset value in the returned list is the embedding of "assigned once,
never recomputed". -/
theorem c2_offsets_monotone (root : Val) (l : List (Val × Nat))
    (h : flatten_values_tree root = Except.ok l) :
    List.get? l 0 = some (root, 0) ∧
    ∀ (i : Nat) (v1 : Val) (o1 : Nat) (v2 : Val) (o2 : Nat),
      List.get? l i = some (v1, o1) → List.get? l (i + 1) = some (v2, o2) →
      o2 = o1 + v1.c_size := by
  rcases flatten_ok_shape h with ⟨d, fs, hroot, hver, hl⟩
  constructor
  · rw [hl]
    simp only [flattenQ]
    rfl
  · intro i v1 o1 v2 o2 h1 h2
    rw [hl, flattenQ_eq_attach] at h1 h2
    exact attachOffsets_get?_succ _ _ _ _ _ _ _ h1 h2

/-- Witness for C2 on the concrete example tree. -/
theorem c2_witness :
    List.get? [(rootS, 0), (childC, 16)] 0 = some (rootS, 0) ∧
    ∀ (i : Nat) (v1 : Val) (o1 : Nat) (v2 : Val) (o2 : Nat),
      List.get? [(rootS, 0), (childC, 16)] i = some (v1, o1) →
      List.get? [(rootS, 0), (childC, 16)] (i + 1) = some (v2, o2) →
      o2 = o1 + v1.c_size :=
  c2_offsets_monotone rootS _ flatten_rootS_eval

/-- C10: in the pure embedding the flattening returns the input's own
nodes: every element of the returned list is a node of the input tree
reachable from the root along non-null struct fields (so its `struct_def`,
its ordered field values and all primitive literals are the unchanged
input subterms, and no new node is created), and every reachable node
appears in the list with an assigned offset; the only information the
traversal adds is the offset paired with each node. -/
theorem c10_flatten_frame (root : Val) (l : List (Val × Nat))
    (h : flatten_values_tree root = Except.ok l) :
    (∀ p ∈ l, Reaches root p.1) ∧
    (∀ x : Val, Reaches root x → ∃ o : Nat, (x, o) ∈ l) := by
  rcases flatten_ok_shape h with ⟨d, fs, hroot, hver, hl⟩
  rw [flattenQ_eq_attach] at hl
  constructor
  · intro p hp
    rw [hl] at hp
    have h1 := fst_mem_of_mem_attachOffsets _ _ _ hp
    rcases mem_bfsLevels_iff.mp h1 with ⟨v, hv, hvx⟩
    rcases List.mem_singleton.mp hv with rfl
    exact hvx
  · intro x hx
    have hxmem : x ∈ bfsLevels [root] :=
      mem_bfsLevels_iff.mpr ⟨root, List.mem_singleton_self root, hx⟩
    rcases mem_attachOffsets_of_mem _ 0 x hxmem with ⟨o, ho⟩
    exact ⟨o, by rw [hl]; exact ho⟩

/-- Witness for C10 on the concrete example tree. -/
theorem c10_witness :
    (∀ p ∈ [(rootS, 0), (childC, 16)], Reaches rootS p.1) ∧
    (∀ x : Val, Reaches rootS x → ∃ o : Nat, (x, o) ∈ [(rootS, 0), (childC, 16)]) :=
  c10_flatten_frame rootS _ flatten_rootS_eval

/-- Claim-side predicate of C6: the first declared field is an unsigned
32-bit field named `"version"`. -/
def firstFieldIsU32Version (d : StructDef) : Bool :=
  match d.vars with
  | v0 :: _ => v0.name == "version" && v0.type == VarType.prim FieldType.u32
  | [] => false

/-- Example root whose definition's first field is named `"version"` but
has type u8, not u32. -/
def rootU8Version : Val :=
  .structVal ⟨"T", [⟨"version", .prim .u8⟩]⟩ [.prim .u8 1]

/-- Counterexample to C6: the root's first field is not a u32 `"version"`
field, yet `flatten_values_tree` succeeds — the code (line 87) asserts
only the name of the first field, never its type. -/
theorem c6_counterexample :
    firstFieldIsU32Version (StructDef.mk "T" [⟨"version", .prim .u8⟩]) = false ∧
    flatten_values_tree rootU8Version = Except.ok [(rootU8Version, 0)] := by
  constructor
  · decide
  · simp [flatten_values_tree, rootU8Version, flattenQ, nodeChildren,
      Val.is_struct, Val.valIsNone, Val.c_size, List.filter]

/-- C6 amended: flattening proceeds exactly when the root is a `StructVal`
whose struct definition's first declared field is named `"version"`; the
field's type is not checked by `flatten_values_tree`. -/
theorem c6_amended_version_name_only (d : StructDef) (fs : List Val) :
    (∃ l, flatten_values_tree (Val.structVal d fs) = Except.ok l) ↔
      ∃ v0 r, d.vars = v0 :: r ∧ v0.name = "version" := by
  constructor
  · rintro ⟨l, hl⟩
    rcases flatten_ok_shape hl with ⟨d2, fs2, heq, hver, _⟩
    injection heq with h1 h2
    subst h1
    exact hver
  · rintro ⟨v0, r, hv, hn⟩
    exact ⟨flattenQ [Val.structVal d fs] 0, by simp [flatten_values_tree, hv, hn]⟩

/-- Auxiliary bit-arithmetic fact: `or`-ing a multiple of `2 ^ k` with a
value below `2 ^ k` is addition (the bit ranges are disjoint). -/
theorem lor_eq_add_of_disjoint (x y k : Nat) (hx : x % 2 ^ k = 0) (hy : y < 2 ^ k) :
    x ||| y = x + y := by
  have hdvd : 2 ^ k ∣ x := Nat.dvd_of_mod_eq_zero hx
  obtain ⟨c, rfl⟩ := hdvd
  apply Nat.eq_of_testBit_eq
  intro j
  rw [Nat.testBit_lor, Nat.testBit_mul_pow_two_add c hy j]
  have hx0 : (2 ^ k * c).testBit j = if j < k then false else c.testBit (j - k) := by
    have h0 : (0 : Nat) < 2 ^ k := Nat.pos_pow_of_pos k (by omega)
    have := Nat.testBit_mul_pow_two_add c h0 j
    simpa using this
  rw [hx0]
  by_cases hj : j < k
  · simp [hj]
  · have hyj : y.testBit j = false := by
      apply Nat.testBit_lt_two_pow
      calc y < 2 ^ k := hy
        _ ≤ 2 ^ j := Nat.pow_le_pow_right (by omega) (by omega)
    simp [hj, hyj]

/-- Closed base-256 form of the packed-version encoding when every
component is in range. -/
theorem encode_eq (m n p b : Nat) (hm : m ≤ 255) (hn : n ≤ 255) (hp : p ≤ 255)
    (hb : b ≤ 255) :
    encode m n p b = m * 2 ^ 24 + n * 2 ^ 16 + p * 2 ^ 8 + b := by
  unfold encode
  rw [Nat.shiftLeft_eq, Nat.shiftLeft_eq, Nat.shiftLeft_eq]
  rw [lor_eq_add_of_disjoint (m * 2 ^ 24) (n * 2 ^ 16) 24
    (by omega) (by omega)]
  rw [lor_eq_add_of_disjoint (m * 2 ^ 24 + n * 2 ^ 16) (p * 2 ^ 8) 16
    (by omega) (by omega)]
  rw [lor_eq_add_of_disjoint (m * 2 ^ 24 + n * 2 ^ 16 + p * 2 ^ 8) b 8
    (by omega) (by omega)]

/-- C5: with all components in `[0, 255]` the encoding is the documented
shift/or formula (equivalently the base-256 value with the major component
most significant), integer comparison of encodings is lexicographic
comparison of the component tuples, and the two concrete orderings of the
claim hold. -/
theorem c5_version_encoding (m n p b m2 n2 p2 b2 : Nat)
    (hm : m ≤ 255) (hn : n ≤ 255) (hp : p ≤ 255) (hb : b ≤ 255)
    (hm2 : m2 ≤ 255) (hn2 : n2 ≤ 255) (hp2 : p2 ≤ 255) (hb2 : b2 ≤ 255) :
    encode m n p b = m * 2 ^ 24 + n * 2 ^ 16 + p * 2 ^ 8 + b ∧
    (encode m n p b < encode m2 n2 p2 b2 ↔
      (m < m2 ∨ (m = m2 ∧ (n < n2 ∨ (n = n2 ∧ (p < p2 ∨ (p = p2 ∧ b < b2))))))) ∧
    encode 2 2 1 0 > encode 2 1 9 9 ∧
    encode 2 0 0 0 < encode 2 0 0 1 := by
  have e1 := encode_eq m n p b hm hn hp hb
  have e2 := encode_eq m2 n2 p2 b2 hm2 hn2 hp2 hb2
  refine ⟨e1, ?_, by decide, by decide⟩
  rw [e1, e2]
  constructor
  · intro h; omega
  · intro h; omega

/-- Witness for C5 at concrete components. -/
theorem c5_witness :
    encode 2 3 0 0 = 2 * 2 ^ 24 + 3 * 2 ^ 16 + 0 * 2 ^ 8 + 0 ∧
    (encode 2 3 0 0 < encode 2 2 255 255 ↔
      (2 < 2 ∨ (2 = 2 ∧ (3 < 2 ∨ (3 = 2 ∧ (0 < 255 ∨ (0 = 255 ∧ 0 < 255))))))) ∧
    encode 2 2 1 0 > encode 2 1 9 9 ∧
    encode 2 0 0 0 < encode 2 0 0 1 :=
  c5_version_encoding 2 3 0 0 2 2 255 255 (by decide) (by decide) (by decide)
    (by decide) (by decide) (by decide) (by decide) (by decide)

/-- Example root `S(version = 2, count = 5, child = null)` whose struct
reference is a null (`None`) reference. -/
def rootNull : Val := .structVal defS [.prim .u32 2, .prim .u32 5, .structNull defC]

/-- C4 (code behaviour at the failing input): flattening a tree whose
struct reference is null succeeds and never assigns the null node an
offset, and the emitter then fails on the
`assert False, "converter None offset to 0"` branch (lines 129-131)
instead of packing the null-sentinel 0 — the `val = 0` line after the
assert is unreachable. -/
theorem c4_null_ref_crashes :
    flatten_values_tree rootNull = Except.ok [(rootNull, 0)] ∧
    gen_cpp_data_for_struct_values [(rootNull, 0)] =
      Except.error EmitError.noneOffsetAssert := by
  constructor
  · simp [flatten_values_tree, rootNull, defS, defC, flattenQ, nodeChildren,
      Val.is_struct, Val.valIsNone, Val.c_size, List.filter]
  · simp [gen_cpp_data_for_struct_values, genRecords, get_cpp_data_for_struct_val,
      packFields, packFieldBytes, lookupOffset, Val.beq, beqValList, pack,
      leBytes, rootNull, defS, defC, Bind.bind, Except.bind, FieldType.width,
      pure, Except.pure]

theorem packFields_error_of_bad_prim (ofs : Val → Option Nat) (fs : List Val)
    (t : FieldType) (x : Int) (hmem : Val.prim t x ∈ fs)
    (hbad : ¬(0 ≤ x ∧ x < (2 : Int) ^ (8 * t.width))) :
    ∃ e, packFields ofs fs = Except.error e := by
  induction fs with
  | nil => simp at hmem
  | cons f rest ih =>
    rcases List.mem_cons.mp hmem with hmem | hmem
    · subst hmem
      refine ⟨EmitError.packRangeError, ?_⟩
      simp [packFields, packFieldBytes, pack, hbad, Bind.bind, Except.bind]
    · rcases hfb : packFieldBytes ofs f with e | a
      · exact ⟨e, by simp [packFields, hfb, Bind.bind, Except.bind]⟩
      · rcases ih hmem with ⟨e, he⟩
        exact ⟨e, by simp [packFields, hfb, he, Bind.bind, Except.bind]⟩

theorem genRecords_error_of_bad_prim (ofs : Val → Option Nat)
    (flat : List (Val × Nat)) (v : Val) (o : Nat) (t : FieldType) (x : Int)
    (hmem : (v, o) ∈ flat) (hf : Val.prim t x ∈ v.fields)
    (hbad : ¬(0 ≤ x ∧ x < (2 : Int) ^ (8 * t.width))) :
    ∃ e, genRecords ofs flat = Except.error e := by
  induction flat with
  | nil => simp at hmem
  | cons p rest ih =>
    rcases List.mem_cons.mp hmem with hmem | hmem
    · subst hmem
      cases v with
      | prim t2 v2 => simp [Val.fields] at hf
      | structNull d => simp [Val.fields] at hf
      | structVal d fs =>
        simp only [Val.fields] at hf
        rcases packFields_error_of_bad_prim ofs fs t x hf hbad with ⟨e, he⟩
        exact ⟨e, by simp [genRecords, get_cpp_data_for_struct_val, he,
          Bind.bind, Except.bind]⟩
    · rcases hgc : get_cpp_data_for_struct_val ofs p.1 with e | a
      · refine ⟨e, ?_⟩
        obtain ⟨p1, p2⟩ := p
        simp only at hgc
        simp [genRecords, hgc, Bind.bind, Except.bind]
      · rcases ih hmem with ⟨e, he⟩
        refine ⟨e, ?_⟩
        obtain ⟨p1, p2⟩ := p
        simp only at hgc
        simp [genRecords, hgc, he, Bind.bind, Except.bind]

/-- C9: a primitive field whose literal does not fit its declared fixed
width packs to `PackRangeError` (`struct.pack` raising), and an emission
over any flattened list containing such a record returns an error — it
never returns a byte sequence, so no partial or truncated output is
produced as a result. -/
theorem c9_pack_range_error (flat : List (Val × Nat)) (v : Val) (o : Nat)
    (t : FieldType) (x : Int) (hmem : (v, o) ∈ flat) (hf : Val.prim t x ∈ v.fields)
    (hbad : ¬(0 ≤ x ∧ x < (2 : Int) ^ (8 * t.width))) :
    (∀ ofs : Val → Option Nat,
      packFieldBytes ofs (Val.prim t x) = Except.error EmitError.packRangeError) ∧
    ∃ e, gen_cpp_data_for_struct_values flat = Except.error e := by
  constructor
  · intro ofs
    simp [packFieldBytes, pack, hbad]
  · cases flat with
    | nil => simp at hmem
    | cons p rest =>
      rcases genRecords_error_of_bad_prim
        (fun y => lookupOffset (p :: rest) y) (p :: rest) v o t x hmem hf hbad with ⟨e, he⟩
      exact ⟨e, by simp [gen_cpp_data_for_struct_values, he]⟩

/-- Example struct definition for the out-of-range witness. -/
def defT : StructDef := ⟨"T", [⟨"version", .prim .u32⟩]⟩

/-- Example record binding `2 ^ 32` to a u32 field. -/
def rootBad : Val := .structVal defT [.prim .u32 4294967296]

/-- Witness for C9: binding `2 ^ 32` to a u32 field makes emission fail. -/
theorem c9_witness :
    (∀ ofs : Val → Option Nat,
      packFieldBytes ofs (Val.prim FieldType.u32 4294967296) =
        Except.error EmitError.packRangeError) ∧
    ∃ e, gen_cpp_data_for_struct_values [(rootBad, 0)] = Except.error e :=
  c9_pack_range_error [(rootBad, 0)] rootBad 0 FieldType.u32 4294967296
    (List.mem_singleton_self _) (by simp [rootBad, Val.fields]) (by decide)

/-- Matching of one bound value against its declared field, in the
width-relevant sense the emitter depends on: a primitive literal carries
exactly the declared primitive kind, and a struct-reference field holds
either a null or a nested record. -/
def varMatches (a : Var) (f : Val) : Bool :=
  match a.type, f with
  | .prim t, .prim t2 _ => t == t2
  | .structPtr _, .structNull _ => true
  | .structPtr _, .structVal _ _ => true
  | _, _ => false

/-- Pointwise matching of a definition's fields against the bound values
(also forcing equal arity). -/
def varsMatch : List Var → List Val → Bool
  | [], [] => true
  | a :: as, f :: fs => varMatches a f && varsMatch as fs
  | _, _ => false

mutual

/-- Well-formedness of a value tree: every record's bound values match its
definition's declared fields one for one, recursively.  Modelled from the
spec: this is the guarantee the construction layer of the missing types
module enforces with its TypeMismatch and Arity errors. -/
def Val.wf : Val → Bool
  | .prim _ _ => true
  | .structNull _ => true
  | .structVal d fs => varsMatch d.vars fs && wfList fs

/-- Well-formedness of a list of bound values. -/
def wfList : List Val → Bool
  | [] => true
  | v :: vs => Val.wf v && wfList vs

end

theorem wfList_mem {fs : List Val} {x : Val} (h : wfList fs = true) (hx : x ∈ fs) :
    x.wf = true := by
  induction fs with
  | nil => simp at hx
  | cons v vs ih =>
    rw [wfList, Bool.and_eq_true] at h
    rcases List.mem_cons.mp hx with rfl | hx
    · exact h.1
    · exact ih h.2 hx

theorem wf_child {v c : Val} (hwf : v.wf = true) (hc : c ∈ nodeChildren v) :
    c.wf = true := by
  cases v with
  | prim t x => simp [nodeChildren] at hc
  | structNull d => simp [nodeChildren] at hc
  | structVal d fs =>
    rw [Val.wf, Bool.and_eq_true] at hwf
    exact wfList_mem hwf.2 (List.mem_of_mem_filter hc)

theorem child_shape {v c : Val} (hc : c ∈ nodeChildren v) :
    ∃ d fs, c = Val.structVal d fs := by
  cases v with
  | prim t x => simp [nodeChildren] at hc
  | structNull d => simp [nodeChildren] at hc
  | structVal d fs =>
    have hp := List.of_mem_filter hc
    cases c with
    | prim t2 x2 => simp [Val.is_struct] at hp
    | structNull d2 => simp [Val.is_struct, Val.valIsNone] at hp
    | structVal d2 fs2 => exact ⟨d2, fs2, rfl⟩

theorem reaches_wf {v x : Val} (h : Reaches v x) : v.wf = true → x.wf = true := by
  induction h with
  | refl v => exact id
  | head hc _ ih => exact fun hwf => ih (wf_child hwf hc)

theorem reaches_shape {v x : Val} (h : Reaches v x) :
    (∃ d fs, v = Val.structVal d fs) → ∃ d fs, x = Val.structVal d fs := by
  induction h with
  | refl v => exact id
  | head hc _ ih => exact fun _ => ih (child_shape hc)

theorem leBytes_length : ∀ (w v : Nat), (leBytes w v).length = w := by
  intro w
  induction w with
  | zero => intro v; rfl
  | succ w ih => intro v; simp [leBytes, ih]

theorem pack_ok_length {w : Nat} {v : Int} {bs : List Nat}
    (h : pack w v = Except.ok bs) : bs.length = w := by
  unfold pack at h
  split at h
  · injection h with h2
    rw [← h2]
    exact leBytes_length w v.toNat
  · exact Except.noConfusion h

theorem packFields_ok_length (ofs : Val → Option Nat) :
    ∀ (vars : List Var) (fs : List Val) (bs : List Nat),
      varsMatch vars fs = true → packFields ofs fs = Except.ok bs →
      bs.length = (vars.map (fun a => a.type.width)).sum := by
  intro vars
  induction vars with
  | nil =>
    intro fs bs hm hp
    cases fs with
    | nil =>
      simp only [packFields] at hp
      injection hp with h2
      simp [← h2]
    | cons f fs2 => simp [varsMatch] at hm
  | cons a as ih =>
    intro fs bs hm hp
    cases fs with
    | nil => simp [varsMatch] at hm
    | cons f fs2 =>
      rw [varsMatch, Bool.and_eq_true] at hm
      rcases h1 : packFieldBytes ofs f with e | b1
      · simp [packFields, h1, Bind.bind, Except.bind] at hp
      · rcases h2 : packFields ofs fs2 with e | b2
        · simp [packFields, h1, h2, Bind.bind, Except.bind] at hp
        · have hbs : bs = b1 ++ b2 := by
            simp [packFields, h1, h2, Bind.bind, Except.bind, pure, Except.pure] at hp
            exact hp.symm
          obtain ⟨aname, atype⟩ := a
          have hlen1 : b1.length = atype.width := by
            cases atype with
            | prim t =>
              cases f with
              | prim t2 x =>
                have ht : t = t2 := by
                  have hm1 := hm.1
                  simp [varMatches] at hm1
                  exact hm1
                simp only [packFieldBytes] at h1
                rw [VarType.width, ht]
                exact pack_ok_length h1
              | structNull d2 =>
                have hm1 := hm.1
                simp [varMatches] at hm1
              | structVal d2 fs3 =>
                have hm1 := hm.1
                simp [varMatches] at hm1
            | structPtr s =>
              cases f with
              | prim t2 x =>
                have hm1 := hm.1
                simp [varMatches] at hm1
              | structNull d2 =>
                simp only [packFieldBytes] at h1
                rcases ho : ofs (Val.structNull d2) with _ | o <;> rw [ho] at h1
                · exact Except.noConfusion h1
                · rw [VarType.width]
                  exact pack_ok_length h1
              | structVal d2 fs3 =>
                simp only [packFieldBytes] at h1
                rcases ho : ofs (Val.structVal d2 fs3) with _ | o <;> rw [ho] at h1
                · exact Except.noConfusion h1
                · rw [VarType.width]
                  exact pack_ok_length h1
          have hlen2 := ih fs2 b2 hm.2 h2
          simp [hbs, hlen1, hlen2]

theorem get_cpp_ok_length (ofs : Val → Option Nat) (d : StructDef) (fs : List Val)
    (bs : List Nat) (hwf : (Val.structVal d fs).wf = true)
    (h : get_cpp_data_for_struct_val ofs (Val.structVal d fs) = Except.ok bs) :
    bs.length = (Val.structVal d fs).c_size := by
  rw [Val.wf, Bool.and_eq_true] at hwf
  simp only [get_cpp_data_for_struct_val] at h
  have := packFields_ok_length ofs d.vars fs bs hwf.1 h
  simpa [Val.c_size, StructDef.c_size] using this

theorem genRecords_ok_length (ofs : Val → Option Nat) :
    ∀ (flat : List (Val × Nat)) (data : List Nat),
      (∀ p ∈ flat, p.1.wf = true ∧ ∃ d fs, p.1 = Val.structVal d fs) →
      genRecords ofs flat = Except.ok data →
      data.length = (flat.map (fun p => p.1.c_size)).sum := by
  intro flat
  induction flat with
  | nil =>
    intro data hall hp
    simp only [genRecords] at hp
    injection hp with h2
    simp [← h2]
  | cons p rest ih =>
    intro data hall hp
    obtain ⟨v, o⟩ := p
    rcases hall (v, o) (List.mem_cons_self _ _) with ⟨hwf, d, fs, rfl⟩
    rcases h1 : get_cpp_data_for_struct_val ofs (Val.structVal d fs) with e | b1
    · simp [genRecords, h1, Bind.bind, Except.bind] at hp
    · rcases h2 : genRecords ofs rest with e | b2
      · simp [genRecords, h1, h2, Bind.bind, Except.bind] at hp
      · have hdata : data = b1 ++ b2 := by
          simp [genRecords, h1, h2, Bind.bind, Except.bind, pure, Except.pure] at hp
          exact hp.symm
        have hlen1 := get_cpp_ok_length ofs d fs b1 hwf h1
        have hlen2 := ih b2 (fun q hq => hall q (List.mem_cons_of_mem _ hq)) h2
        simp [hdata, hlen1, hlen2]

/-- C7: when flattening and emission both succeed on a well-formed value
tree, the emitted byte sequence is the concatenation of the per-record
byte runs in flattened-list order, and its length is the sum of `c_size`
over the records of the flattened list (each reachable record listed
once). -/
theorem c7_output_length (root : Val) (l : List (Val × Nat)) (data : List Nat)
    (hwf : root.wf = true) (hf : flatten_values_tree root = Except.ok l)
    (he : gen_cpp_data_for_struct_values l = Except.ok data) :
    data.length = (l.map (fun p => p.1.c_size)).sum := by
  rcases flatten_ok_shape hf with ⟨d, fs, hroot, hver, hl⟩
  have hall : ∀ p ∈ l, p.1.wf = true ∧ ∃ d2 fs2, p.1 = Val.structVal d2 fs2 := by
    intro p hp
    rw [hl, flattenQ_eq_attach] at hp
    have h1 := fst_mem_of_mem_attachOffsets _ _ _ hp
    rcases mem_bfsLevels_iff.mp h1 with ⟨v, hv, hvx⟩
    rcases List.mem_singleton.mp hv with rfl
    exact ⟨reaches_wf hvx hwf, reaches_shape hvx ⟨d, fs, hroot⟩⟩
  cases l with
  | nil => simp [gen_cpp_data_for_struct_values] at he
  | cons p rest =>
    simp only [gen_cpp_data_for_struct_values] at he
    exact genRecords_ok_length _ (p :: rest) data hall he

/-- Byte run the emitter produces for the example tree. -/
def emittedS : List Nat :=
  [2, 0, 0, 0, 5, 0, 0, 0, 16, 0, 0, 0, 0, 0, 0, 0, 2, 0, 0, 0, 1]

theorem rootS_wf_eval : rootS.wf = true := by
  simp [rootS, childC, defS, defC, Val.wf, wfList, varsMatch, varMatches]

theorem emit_rootS_eval :
    gen_cpp_data_for_struct_values [(rootS, 0), (childC, 16)] = Except.ok emittedS := by
  simp [gen_cpp_data_for_struct_values, genRecords, get_cpp_data_for_struct_val,
    packFields, packFieldBytes, lookupOffset, Val.beq, beqValList, pack, leBytes,
    rootS, childC, defS, defC, emittedS, FieldType.width, Bind.bind, Except.bind,
    pure, Except.pure]

/-- Witness for C7 on the concrete example tree: 21 bytes = 16 + 5. -/
theorem c7_witness :
    emittedS.length = (([(rootS, 0), (childC, 16)]).map (fun p => p.1.c_size)).sum :=
  c7_output_length rootS [(rootS, 0), (childC, 16)] emittedS rootS_wf_eval
    flatten_rootS_eval emit_rootS_eval

/-- Example struct definition for record `A` of the two-cycle. -/
def defA : StructDef := ⟨"A", [⟨"version", .prim .u32⟩, ⟨"b", .structPtr "B"⟩]⟩

/-- Example struct definition for record `B` of the two-cycle. -/
def defB : StructDef := ⟨"B", [⟨"version", .prim .u32⟩, ⟨"a", .structPtr "A"⟩]⟩

/-- Store containing the two-cycle: record `A` (id 0) references record
`B` (id 1) and `B` references `A` back. -/
def cycStore : Store :=
  [⟨defA, [.prim .u32 1, .ref (some 1)]⟩, ⟨defB, [.prim .u32 1, .ref (some 0)]⟩]

/-- Statement that the flattening loop runs forever on a root: whatever
the pre-existing offset attributes, no amount of fuel makes it return. -/
def neverTerminates (s : Store) (root : Nat) : Prop :=
  ∀ (omap0 : List (Nat × Nat)) (fuel : Nat), hflatten s root omap0 fuel = none

theorem runH_two_cycle (s : Store) (a b : Nat)
    (ha : hchildren s a = [b]) (hb : hchildren s b = [a]) :
    ∀ (n : Nat) (st : FState), (st.left = [a] ∨ st.left = [b]) →
      runH s n st = none := by
  intro n
  induction n with
  | zero =>
    intro st h
    rcases h with h | h <;> simp [runH, h]
  | succ n ih =>
    intro st h
    rcases h with h | h
    · rw [runH, h]
      have hrec : runH s n (stepH s st) = none :=
        ih (stepH s st) (Or.inr (by simp [stepH, h, ha]))
      simpa using hrec
    · rw [runH, h]
      have hrec : runH s n (stepH s st) = none :=
        ih (stepH s st) (Or.inl (by simp [stepH, h, hb]))
      simpa using hrec

theorem hflatten_eq (s : Store) (root : Nat) (omap0 : List (Nat × Nat))
    (fuel : Nat) (n : HNode) (v0 : Var) (r : List Var)
    (hn : s[root]? = some n) (hv : n.struct_def.vars = v0 :: r)
    (hname : v0.name = "version") :
    hflatten s root omap0 fuel =
      (runH s fuel { left := [root], offset := 0, vals := [], omap := omap0 }).map
        Except.ok := by
  unfold hflatten
  split
  · rename_i heq
    rw [hn] at heq
    exact Option.noConfusion heq
  · rename_i n2 heq
    rw [hn] at heq
    injection heq with heq
    subst heq
    split
    · rename_i hv2
      rw [hv] at hv2
      exact List.noConfusion hv2
    · rename_i v02 r2 hv2
      rw [hv] at hv2
      injection hv2 with h1 h2
      subst h1
      rw [if_pos hname]

/-- C3 amended: `flatten_values_tree` performs no cycle detection and has
no `CyclicReferenceError` outcome; on a value tree in which the root
record references a record that references it back, the work-queue loop
never terminates (each node is re-enqueued every time it is revisited). -/
theorem c3_amended_cycle_runs_forever (s : Store) (a b : Nat)
    (omap0 : List (Nat × Nat)) (fuel : Nat)
    (ha : hchildren s a = [b]) (hb : hchildren s b = [a])
    (hroot : ∃ n, s[a]? = some n ∧
      ∃ v0 r, n.struct_def.vars = v0 :: r ∧ v0.name = "version") :
    hflatten s a omap0 fuel = none := by
  rcases hroot with ⟨n, hn, v0, r, hv, hname⟩
  rw [hflatten_eq s a omap0 fuel n v0 r hn hv hname]
  rw [runH_two_cycle s a b ha hb fuel _ (Or.inl rfl)]
  rfl

/-- Counterexample to C3: on the concrete two-cycle (`A` references `B`,
`B` references `A`) the flattening loop never returns — in particular it
never raises a `CyclicReferenceError`, which is not an outcome of the
code at all. -/
theorem c3_counterexample :
    hchildren cycStore 0 = [1] ∧ hchildren cycStore 1 = [0] ∧
    neverTerminates cycStore 0 := by
  refine ⟨rfl, rfl, ?_⟩
  intro omap0 fuel
  rw [hflatten_eq cycStore 0 omap0 fuel ⟨defA, [.prim .u32 1, .ref (some 1)]⟩
    ⟨"version", .prim .u32⟩ [⟨"b", .structPtr "B"⟩] rfl rfl rfl]
  rw [runH_two_cycle cycStore 0 1 rfl rfl fuel _ (Or.inl rfl)]
  rfl

/-- Witness for the amended C3 at the concrete two-cycle store. -/
theorem c3_witness :
    hchildren cycStore 0 = [1] ∧ hchildren cycStore 1 = [0] ∧
    hflatten cycStore 0 [] 1000 = none :=
  ⟨rfl, rfl,
    c3_amended_cycle_runs_forever cycStore 0 1 [] 1000 rfl rfl
      ⟨⟨defA, [.prim .u32 1, .ref (some 1)]⟩, rfl, ⟨"version", .prim .u32⟩,
        [⟨"b", .structPtr "B"⟩], rfl, rfl⟩⟩

theorem runH_some_left_nil (s : Store) :
    ∀ (n : Nat) (st st2 : FState), runH s n st = some st2 → st2.left = [] := by
  intro n
  induction n with
  | zero =>
    intro st st2 h
    unfold runH at h
    rcases hl : st.left with _ | ⟨i, rest⟩
    · rw [hl] at h
      simp at h
      rw [← h]
      exact hl
    · rw [hl] at h
      simp at h
  | succ n ih =>
    intro st st2 h
    unfold runH at h
    rcases hl : st.left with _ | ⟨i, rest⟩
    · rw [hl] at h
      simp at h
      rw [← h]
      exact hl
    · rw [hl] at h
      simp at h
      exact ih _ _ h

/-- Invariant of the flattening loop: every non-null struct reference of
an already-popped node is either already popped or still in the queue. -/
def ClosedState (s : Store) (st : FState) : Prop :=
  ∀ i ∈ st.vals, ∀ j ∈ hchildren s i, j ∈ st.vals ∨ j ∈ st.left

theorem stepH_closed (s : Store) (st : FState) (h : ClosedState s st) :
    ClosedState s (stepH s st) := by
  rcases hl : st.left with _ | ⟨i, rest⟩
  · have : stepH s st = st := by simp [stepH, hl]
    rw [this]
    exact h
  · have hv2 : (stepH s st).vals = st.vals ++ [i] := by simp [stepH, hl]
    have hl2 : (stepH s st).left = rest ++ hchildren s i := by simp [stepH, hl]
    intro i2 hi2 j hj
    rw [hv2] at hi2
    rw [hv2, hl2]
    rcases List.mem_append.mp hi2 with hi2 | hi2
    · rcases h i2 hi2 j hj with hjv | hjl
      · exact Or.inl (List.mem_append_left _ hjv)
      · rw [hl] at hjl
        rcases List.mem_cons.mp hjl with rfl | hjr
        · exact Or.inl (List.mem_append_right _ (List.mem_singleton_self _))
        · exact Or.inr (List.mem_append_left _ hjr)
    · have : i2 = i := List.mem_singleton.mp hi2
      subst this
      exact Or.inr (List.mem_append_right _ hj)

theorem runH_closed (s : Store) :
    ∀ (n : Nat) (st st2 : FState), runH s n st = some st2 →
      ClosedState s st → ClosedState s st2 := by
  intro n
  induction n with
  | zero =>
    intro st st2 h hc
    unfold runH at h
    rcases hl : st.left with _ | ⟨i, rest⟩
    · rw [hl] at h
      simp at h
      rw [← h]
      exact hc
    · rw [hl] at h
      simp at h
  | succ n ih =>
    intro st st2 h hc
    unfold runH at h
    rcases hl : st.left with _ | ⟨i, rest⟩
    · rw [hl] at h
      simp at h
      rw [← h]
      exact hc
    · rw [hl] at h
      simp at h
      exact ih _ _ h (stepH_closed s st hc)

theorem runH_param (s : Store) :
    ∀ (n : Nat) (l : List Nat) (off : Nat) (vs : List Nat)
      (om1 om2 : List (Nat × Nat)),
      (runH s n ⟨l, off, vs, om1⟩ = none ∧ runH s n ⟨l, off, vs, om2⟩ = none) ∨
      (∃ l2 off2 vs2 w,
        runH s n ⟨l, off, vs, om1⟩ = some ⟨l2, off2, vs2, w ++ om1⟩ ∧
        runH s n ⟨l, off, vs, om2⟩ = some ⟨l2, off2, vs2, w ++ om2⟩ ∧
        ∀ i ∈ vs2, i ∈ vs ∨ ∃ o, (i, o) ∈ w) := by
  intro n
  induction n with
  | zero =>
    intro l off vs om1 om2
    cases l with
    | nil =>
      right
      exact ⟨[], off, vs, [], by simp [runH], by simp [runH],
        fun i hi => Or.inl hi⟩
    | cons i rest =>
      left
      constructor <;> simp [runH]
  | succ n ih =>
    intro l off vs om1 om2
    cases l with
    | nil =>
      right
      exact ⟨[], off, vs, [], by simp [runH], by simp [runH],
        fun i hi => Or.inl hi⟩
    | cons i rest =>
      have hs1 : runH s (n + 1) ⟨i :: rest, off, vs, om1⟩ =
          runH s n ⟨rest ++ hchildren s i, off + hcsize s i, vs ++ [i],
            (i, off) :: om1⟩ := by
        simp [runH, stepH]
      have hs2 : runH s (n + 1) ⟨i :: rest, off, vs, om2⟩ =
          runH s n ⟨rest ++ hchildren s i, off + hcsize s i, vs ++ [i],
            (i, off) :: om2⟩ := by
        simp [runH, stepH]
      rcases ih (rest ++ hchildren s i) (off + hcsize s i) (vs ++ [i])
          ((i, off) :: om1) ((i, off) :: om2) with ⟨h1, h2⟩ | ⟨l2, off2, vs2, w, h1, h2, hv⟩
      · left
        rw [hs1, hs2]
        exact ⟨h1, h2⟩
      · right
        refine ⟨l2, off2, vs2, w ++ [(i, off)], ?_, ?_, ?_⟩
        · rw [hs1, h1]
          simp
        · rw [hs2, h2]
          simp
        · intro i2 hi2
          rcases hv i2 hi2 with hmem | ⟨o, ho⟩
          · rcases List.mem_append.mp hmem with hmem | hmem
            · exact Or.inl hmem
            · refine Or.inr ⟨off, ?_⟩
              have : i2 = i := List.mem_singleton.mp hmem
              subst this
              exact List.mem_append_right _ (List.mem_singleton_self _)
          · exact Or.inr ⟨o, List.mem_append_left _ ho⟩

theorem alookup_append_left {w : List (Nat × Nat)} {j o : Nat}
    (h : (j, o) ∈ w) (om : List (Nat × Nat)) :
    alookup (w ++ om) j = alookup w j := by
  induction w with
  | nil => simp at h
  | cons kv rest ih =>
    obtain ⟨k, v⟩ := kv
    by_cases hk : k = j
    · simp [alookup, hk]
    · rcases List.mem_cons.mp h with heq | hmem
      · injection heq with h1 h2
        exact absurd h1.symm hk
      · simp only [List.cons_append, alookup, if_neg hk]
        exact ih hmem

theorem hflatten_no_node (s : Store) (root : Nat) (omap0 : List (Nat × Nat))
    (fuel : Nat) (hn : s[root]? = none) :
    hflatten s root omap0 fuel = some (Except.error FlattenError.indexError) := by
  unfold hflatten
  split
  · rfl
  · rename_i n2 heq
    rw [hn] at heq
    exact Option.noConfusion heq

theorem hflatten_empty_vars (s : Store) (root : Nat) (omap0 : List (Nat × Nat))
    (fuel : Nat) (n : HNode) (hn : s[root]? = some n)
    (hv : n.struct_def.vars = []) :
    hflatten s root omap0 fuel = some (Except.error FlattenError.indexError) := by
  unfold hflatten
  split
  · rfl
  · rename_i n2 heq
    rw [hn] at heq
    injection heq with heq
    subst heq
    split
    · rfl
    · rename_i v02 r2 hv2
      rw [hv] at hv2
      exact List.noConfusion hv2

theorem hflatten_bad_name (s : Store) (root : Nat) (omap0 : List (Nat × Nat))
    (fuel : Nat) (n : HNode) (v0 : Var) (r : List Var) (hn : s[root]? = some n)
    (hv : n.struct_def.vars = v0 :: r) (hname : ¬v0.name = "version") :
    hflatten s root omap0 fuel = some (Except.error FlattenError.assertionError) := by
  unfold hflatten
  split
  · rename_i heq
    rw [hn] at heq
    exact Option.noConfusion heq
  · rename_i n2 heq
    rw [hn] at heq
    injection heq with heq
    subst heq
    split
    · rename_i hv2
      rw [hv] at hv2
      exact List.noConfusion hv2
    · rename_i v02 r2 hv2
      rw [hv] at hv2
      injection hv2 with h1 h2
      subst h1
      rw [if_neg hname]

theorem packHFields_param (w om1 om2 : List (Nat × Nat)) :
    ∀ (fs : List HField),
      (∀ j : Nat, HField.ref (some j) ∈ fs → ∃ o, (j, o) ∈ w) →
      packHFields (w ++ om1) fs = packHFields (w ++ om2) fs := by
  intro fs
  induction fs with
  | nil => intro h; rfl
  | cons f rest ih =>
    intro h
    have hf : packHField (w ++ om1) f = packHField (w ++ om2) f := by
      cases f with
      | prim t v => rfl
      | ref target =>
        cases target with
        | none => rfl
        | some j =>
          rcases h j (List.mem_cons_self _ _) with ⟨o, ho⟩
          simp [packHField, alookup_append_left ho]
    simp [packHFields, hf, ih (fun j hj => h j (List.mem_cons_of_mem _ hj))]

theorem hemit_param (s : Store) (w om1 om2 : List (Nat × Nat)) :
    ∀ (vs : List Nat),
      (∀ i ∈ vs, ∀ j ∈ hchildren s i, ∃ o, (j, o) ∈ w) →
      hemit s (w ++ om1) vs = hemit s (w ++ om2) vs := by
  intro vs
  induction vs with
  | nil => intro h; rfl
  | cons i rest ih =>
    intro h
    cases hn : s[i]? with
    | none => simp [hemit, hn]
    | some node =>
      have hkeys : ∀ j : Nat, HField.ref (some j) ∈ node.fields →
          ∃ o, (j, o) ∈ w := by
        intro j hj
        refine h i (List.mem_cons_self _ _) j ?_
        have hch : hchildren s i = node.fields.filterMap (fun f =>
            match f with
            | .ref (some j2) => some j2
            | _ => none) := by
          simp [hchildren, hn]
        rw [hch]
        exact List.mem_filterMap.mpr ⟨HField.ref (some j), hj, rfl⟩
      have hpf := packHFields_param w om1 om2 node.fields hkeys
      simp [hemit, hn, hpf, ih (fun i2 hi2 => h i2 (List.mem_cons_of_mem _ hi2))]

theorem hflatten_param (s : Store) (root : Nat) (fuel : Nat)
    (om1 om2 : List (Nat × Nat)) :
    (hflatten s root om1 fuel = none ∧ hflatten s root om2 fuel = none) ∨
    (∃ e, hflatten s root om1 fuel = some (Except.error e) ∧
      hflatten s root om2 fuel = some (Except.error e)) ∨
    (∃ st1 st2 w,
      hflatten s root om1 fuel = some (Except.ok st1) ∧
      hflatten s root om2 fuel = some (Except.ok st2) ∧
      st1.vals = st2.vals ∧ st1.omap = w ++ om1 ∧ st2.omap = w ++ om2 ∧
      (∀ i ∈ st1.vals, ∃ o, (i, o) ∈ w) ∧
      (∀ i ∈ st1.vals, ∀ j ∈ hchildren s i, j ∈ st1.vals)) := by
  cases hn : s[root]? with
  | none =>
    right; left
    exact ⟨FlattenError.indexError, hflatten_no_node s root om1 fuel hn,
      hflatten_no_node s root om2 fuel hn⟩
  | some n =>
    cases hv : n.struct_def.vars with
    | nil =>
      right; left
      exact ⟨FlattenError.indexError, hflatten_empty_vars s root om1 fuel n hn hv,
        hflatten_empty_vars s root om2 fuel n hn hv⟩
    | cons v0 r =>
      by_cases hname : v0.name = "version"
      · rw [hflatten_eq s root om1 fuel n v0 r hn hv hname,
          hflatten_eq s root om2 fuel n v0 r hn hv hname]
        rcases runH_param s fuel [root] 0 [] om1 om2 with
          ⟨h1, h2⟩ | ⟨l2, off2, vs2, w, h1, h2, hkey⟩
        · left
          rw [h1, h2]
          exact ⟨rfl, rfl⟩
        · right; right
          have hnil : l2 = [] :=
            runH_some_left_nil s fuel _ _ h1
          have hcl := runH_closed s fuel ⟨[root], 0, [], om1⟩
            ⟨l2, off2, vs2, w ++ om1⟩ h1 (fun i2 hi2 => absurd hi2 (by simp))
          refine ⟨⟨l2, off2, vs2, w ++ om1⟩, ⟨l2, off2, vs2, w ++ om2⟩, w,
            ?_, ?_, rfl, rfl, rfl, ?_, ?_⟩
          · rw [h1]; rfl
          · rw [h2]; rfl
          · intro i hi
            rcases hkey i hi with h | h
            · simp at h
            · exact h
          · intro i hi j hj
            rcases hcl i hi j hj with h | h
            · exact h
            · rw [hnil] at h
              simp at h
      · right; left
        exact ⟨FlattenError.assertionError,
          hflatten_bad_name s root om1 fuel n v0 r hn hv hname,
          hflatten_bad_name s root om2 fuel n v0 r hn hv hname⟩

/-- C8: the flatten-then-emit pipeline is deterministic and carries no
hidden mutable state across calls.  The only state the two functions touch
beyond their argument is the nodes' mutable `offset` attribute, explicit
here as `omap0`: whatever offset attributes are already present (for
example those left behind by an earlier run over the same tree), the
pipeline's outcome — byte-for-byte — is the same, so running it twice on
the same value tree yields byte-identical output. -/
theorem c8_pipeline_deterministic (s : Store) (root : Nat)
    (om1 om2 : List (Nat × Nat)) (fuel : Nat) :
    hpipeline s root om1 fuel = hpipeline s root om2 fuel := by
  rcases hflatten_param s root fuel om1 om2 with
    ⟨h1, h2⟩ | ⟨e, h1, h2⟩ | ⟨st1, st2, w, h1, h2, hvals, ho1, ho2, hkeys, hclosed⟩
  · unfold hpipeline
    rw [h1, h2]
  · unfold hpipeline
    rw [h1, h2]
  · unfold hpipeline
    have he : hemit s st1.omap st1.vals = hemit s st2.omap st2.vals := by
      rw [ho1, ho2, ← hvals]
      exact hemit_param s w om1 om2 st1.vals
        (fun i hi j hj => hkeys j (hclosed i hi j hj))
    simp only [h1, h2, ← hvals, he]

end GenSettings
